import Mathlib

/-!
# Verification of the ConvAI-Analyzer core

A shallow embedding of the two subsystems of the repository that carry the
algorithmic content:

* the worker-side record store, filter engine and sweep-line aggregator
  (`WORKER_CODE` in `src/constants.ts`: `applyFilters`, `calculateSummary`,
  the CSV `step` callback that expands packed custom metrics and updates the
  inverted index);
* the rate-limited scheduler `RequestQueue` (`src/unnamed/part_001`) and the
  map-reduce summarization pipeline `generateSummary` (`src/unnamed/part_003`).

Modelling conventions:

* JavaScript timestamps (`Date#getTime()` milliseconds) are modelled as `Int`.
  `parseDate` results are carried on a `Row` as already-parsed
  `Option Int` values (`none` when the regex match fails); the claims under
  study never depend on the calendar arithmetic inside `parseDate` itself.
* JavaScript floating point arithmetic on durations/averages is modelled
  exactly over `ℚ`.
* A JS `Set` of numbers is modelled as a `List Nat` in insertion order
  (membership is what the code observes); a JS object used as a map is
  modelled as a function into `Option`.
* `Array.prototype.sort` is stable (ES2019); it is modelled by
  `List.insertionSort`, which is the stable sort for the comparator used by
  the source (`(a, b) => a.time - b.time`).
* String operations (`split`, `trim`, `toLowerCase`, `includes`) are defined
  over `String.data` so that concrete runs reduce inside the kernel; they
  follow the JavaScript semantics for the (non-degenerate) inputs the code
  uses.
-/

namespace ConvAI

/-! ## JavaScript string helpers -/

/-- `s.toLowerCase()`. -/
def jsToLower (s : String) : String := ⟨s.data.map Char.toLower⟩

/-- `s.trim()` : strip leading and trailing whitespace. -/
def jsTrim (s : String) : String :=
  ⟨((s.data.dropWhile Char.isWhitespace).reverse.dropWhile Char.isWhitespace).reverse⟩

/-- Worker of `jsSplit`: scans `rest` for occurrences of the (nonempty)
separator `sep`, accumulating the current fragment in reversed order in
`acc`.  `fuel` is an upper bound on the number of characters left, so the
recursion is structural and reduces in the kernel. -/
def jsSplitGo (sep : List Char) : Nat → List Char → List Char → List (List Char)
  | _, acc, [] => [acc.reverse]
  | 0, acc, rest => [acc.reverse ++ rest]
  | fuel + 1, acc, c :: cs =>
      if sep.isPrefixOf (c :: cs) then
        acc.reverse :: jsSplitGo sep fuel [] ((c :: cs).drop sep.length)
      else
        jsSplitGo sep fuel (c :: acc) cs

/-- `s.split(sep)` for a nonempty separator, as used by the source
(`'||'` and `'='`). -/
def jsSplit (s sep : String) : List String :=
  if sep.data.isEmpty then [s]
  else (jsSplitGo sep.data s.data.length [] s.data).map String.mk

/-- `s.includes(sub)`. -/
def jsIncludes (s sub : String) : Bool := decide (sub.data <:+: s.data)

/-! ## Data model

A `Row` is one entry of `rawDataStore`: its field map (normalized
lower-cased keys) together with the already-parsed `parseDate` results for
the `created` / `finished` fields (the only timestamp fields the worker
parses). -/

structure Row where
  created : Option Int
  finished : Option Int
  fields : String → Option String

/-- The worker's module-level state that `applyFilters` reads:
`rawDataStore`, `filterIndexes` and `aggregators.totalRows`. -/
structure DataStore where
  rows : List Row
  filterIndexes : String → String → List Nat
  totalRows : Nat

/-! ## Filter engine (`applyFilters` in `WORKER_CODE`) -/

/-- One entry of a filter specification: a date range (bounds already
parsed from `new Date(... + 'T00:00:00Z')` / `'T23:59:59Z'`, `none` when the
bound string is falsy), a list of accepted discrete values, or a free-text
substring. -/
inductive FilterValue where
  | dateRange (lo hi : Option Int)
  | values (vs : List String)
  | substr (s : String)

/-- The body of the `dateRange` scan: a candidate row passes when its
`created` field parses and the parsed date is within the inclusive bounds
(`rowDate < startDate` and `rowDate > endDate` both reject). -/
def rowDateOk (st : DataStore) (lo hi : Option Int) (i : Nat) : Bool :=
  match st.rows[i]? with
  | none => false
  | some r =>
      match r.created with
      | none => false
      | some d =>
          (match lo with | some s => decide (s ≤ d) | none => true) &&
          (match hi with | some e => decide (d ≤ e) | none => true)

/-- The body of the free-text scan:
`String(rawDataStore[index][key.toLowerCase()] ?? '').toLowerCase().includes(lowerCaseFilter)`. -/
def rowSubstrOk (st : DataStore) (k needle : String) (i : Nat) : Bool :=
  match st.rows[i]? with
  | none => false
  | some r => jsIncludes (jsToLower ((r.fields (jsToLower k)).getD "")) (jsToLower needle)

/-- One iteration of the `for (const key in filters)` loop of `applyFilters`:
build `newMatchingIndexes` according to the shape of the filter value, then
intersect the running candidate set with it.  The `dateRange` key with both
bounds absent `continue`s (no intersection); a value that matches none of the
three shapes leaves `newMatchingIndexes` empty, so the intersection empties
the candidate set. -/
def applyFilterStep (st : DataStore) (cands : List Nat) (k : String)
    (fv : FilterValue) : List Nat :=
  if k = "dateRange" then
    match fv with
    | .dateRange lo hi =>
        match lo, hi with
        | none, none => cands
        | _, _ =>
            let newM := cands.filter (rowDateOk st lo hi)
            cands.filter (fun i => newM.contains i)
    | _ => cands
  else
    let newM : List Nat :=
      match fv with
      | .values vs => if vs.isEmpty then [] else vs.flatMap (fun v => st.filterIndexes k v)
      | .substr sub => if sub = "" then [] else cands.filter (rowSubstrOk st k sub)
      | .dateRange _ _ => []
    cands.filter (fun i => newM.contains i)

/-- `applyFilters`: start from all row ids `[0, totalRows)`, fold the filter
entries through `applyFilterStep`, short-circuiting once the candidate set is
empty. -/
def applyFilters (st : DataStore) (filters : List (String × FilterValue)) : List Nat :=
  filters.foldl
    (fun cands kv => if cands.isEmpty then cands else applyFilterStep st cands kv.1 kv.2)
    (List.range st.totalRows)

/-! ## Scheduler (`RequestQueue` in `src/unnamed/part_001`)

The queue's mutable state (`queue`, `activeCount`, `lastRequestTime`) is
modelled as `QState`, together with a monotone wall clock `now`.  Its
behaviour is modelled as a trace of timed events checked by `qstep`:

* `enqueue` — `add` pushes a task;
* `dispatch` — `process` pops a task; the source guards this with
  `activeCount < maxConcurrency && wait === 0`, where
  `wait = max(0, minDelay - (now - lastRequestTime))`, i.e.
  `lastRequestTime + minDelay ≤ now`, and then sets
  `lastRequestTime = Date.now()` (a read taken no earlier than the one used
  in the guard, so requiring the guard at the recorded dispatch time is
  sound);
* `complete` — a dispatched task's `finally` block decrements
  `activeCount`. -/

inductive SEvent where
  | enqueue
  | dispatch
  | complete
deriving DecidableEq

structure Timed where
  t : ℚ
  ev : SEvent
deriving DecidableEq

structure QState where
  queue : Nat
  active : Nat
  lastRequestTime : ℚ
  now : ℚ
deriving DecidableEq

/-- Constructor state: empty queue, `activeCount = 0`, `lastRequestTime = 0`. -/
def initialQState : QState := ⟨0, 0, 0, 0⟩

/-- `minDelay = 60000 / rpm` computed in the `RequestQueue` constructor. -/
def minDelayOf (rpm : ℚ) : ℚ := 60000 / rpm

/-- `maxConcurrency = Math.min(6, Math.ceil(rpm / 10) + 1)` computed in the
`RequestQueue` constructor. -/
def maxConcurrencyOf (rpm : ℚ) : ℤ := min 6 (⌈rpm / 10⌉ + 1)

/-- One timed scheduler event applied to the state; `none` when the event is
not enabled (guards violated or clock moving backwards). -/
def qstep (maxC : Nat) (minDelay : ℚ) (s : QState) (e : Timed) : Option QState :=
  if e.t < s.now then none
  else
    match e.ev with
    | .enqueue => some { s with queue := s.queue + 1, now := e.t }
    | .dispatch =>
        if 0 < s.queue ∧ s.active < maxC ∧ s.lastRequestTime + minDelay ≤ e.t then
          some ⟨s.queue - 1, s.active + 1, e.t, e.t⟩
        else none
    | .complete =>
        if 0 < s.active then some { s with active := s.active - 1, now := e.t } else none

/-- Run a trace of timed events from a state. -/
def runTrace (maxC : Nat) (minDelay : ℚ) : QState → List Timed → Option QState
  | s, [] => some s
  | s, e :: tr =>
      match qstep maxC minDelay s e with
      | none => none
      | some s' => runTrace maxC minDelay s' tr

/-- The dispatch instants of a trace, in order. -/
def dispatchTimes (tr : List Timed) : List ℚ :=
  (tr.filter (fun e => e.ev = SEvent.dispatch)).map (·.t)

/-- `RequestQueue.clear()`: `this.queue = []; this.activeCount = 0;` —
note that `lastRequestTime` is left untouched by the source. -/
def clearQ (s : QState) : QState := { s with queue := 0, active := 0 }

/-! ## Sweep-line aggregator (`calculateSummary` in `WORKER_CODE`) -/

/-- One sweep event, `{ time, type: 'start' | 'end' }`. -/
structure Event where
  time : Int
  isStart : Bool
deriving DecidableEq

/-- The comparator `(a, b) => a.time - b.time` as a relation. -/
def timeLE (a b : Event) : Prop := a.time ≤ b.time

instance : DecidableRel timeLE := fun a b => Int.decLe a.time b.time

instance : IsTotal Event timeLE := ⟨fun a b => Int.le_total a.time b.time⟩

instance : IsTrans Event timeLE := ⟨fun _ _ _ h h' => le_trans h h'⟩

/-- `events.sort((a, b) => a.time - b.time)`: `Array.prototype.sort` is
stable, and `List.insertionSort` is the stable sort for this comparator. -/
def sortEvents (l : List Event) : List Event := List.insertionSort timeLE l

/-- The `(start, end)` millisecond pairs of the rows whose `created` and
`finished` fields both parse — the rows that contribute events. -/
def validPairs (rows : List Row) : List (Int × Int) :=
  rows.filterMap (fun r =>
    match r.created, r.finished with
    | some s, some e => some (s, e)
    | _, _ => none)

/-- The event list pushed by the `rowIndexes.forEach` loop: for each valid
row, a start event then an end event, in row order. -/
def eventsOf (rows : List Row) : List Event :=
  (validPairs rows).flatMap (fun p => [⟨p.1, true⟩, ⟨p.2, false⟩])

/-- `firstEventTime`: running minimum of the start times (the source seeds it
with `Infinity`, so on a nonempty list it is the fold below). -/
def minStarts : List (Int × Int) → Int
  | [] => 0
  | p :: rest => rest.foldl (fun a q => min a q.1) p.1

/-- `lastEventTime`: running maximum of the end times. -/
def maxEnds : List (Int × Int) → Int
  | [] => 0
  | p :: rest => rest.foldl (fun a q => max a q.2) p.2

/-- `+1` for a start event, `-1` for an end event. -/
def delta (e : Event) : Int := if e.isStart then 1 else -1

/-- Net counter change over a list of events. -/
def deltaSum (l : List Event) : Int := (l.map delta).sum

/-- The timestamp of the last event of `l`, defaulting to `d`. -/
def lastTime (l : List Event) (d : Int) : Int := (l.map (·.time)).getLastD d

/-- The number of pairs straddling instant `t` (the true concurrency at `t`). -/
def countAt (vp : List (Int × Int)) (t : Int) : Int :=
  (vp.map (fun p => if p.1 ≤ t ∧ t < p.2 then (1 : ℤ) else 0)).sum

/-- One step of the concurrency sweep, on `(currentConcurrency, maxConcurrency)`:
starts increment and update the running maximum, ends decrement. -/
def sweepStep (st : Int × Int) (e : Event) : Int × Int :=
  if e.isStart then
    let c := st.1 + 1
    (c, if st.2 < c then c else st.2)
  else (st.1 - 1, st.2)

/-- The `maxConcurrency` produced by sweeping the event list from `(0, 0)`. -/
def sweepPeak (l : List Event) : Int := (l.foldl sweepStep (0, 0)).2

/-- `true` iff the running concurrency counter, started at `c`, stays
nonnegative after every event of the sweep. -/
def sweepNeverNeg : Int → List Event → Bool
  | _, [] => true
  | c, e :: l => decide (0 ≤ c + delta e) && sweepNeverNeg (c + delta e) l

/-- The summary record produced by `calculateSummary` (the fields the claims
are about; `timeRange` is `(firstEventTime, lastEventTime)`, `none` standing
for `'N/A'`). -/
structure Summary where
  peakConcurrency : Int
  avgConcurrency : ℚ
  timeRange : Option (Int × Int)
deriving DecidableEq

/-- `calculateSummary(rowIndexes)` over the selected rows:
`totalHandleTimeMinutes` is the sum of per-row `(end - start) / 60000`;
`avgConcurrency = totalHandleTimeMinutes / totalDurationMinutes` when the
covered duration `lastEventTime - firstEventTime` is positive; the peak is
the sweep maximum over the time-sorted events. -/
def calculateSummary (rows : List Row) : Summary :=
  let vp := validPairs rows
  if vp.isEmpty then ⟨0, 0, none⟩
  else
    let events := sortEvents (eventsOf rows)
    let totalHandleTimeMinutes : ℚ := (((vp.map (fun p => p.2 - p.1)).sum : ℤ) : ℚ) / 60000
    let firstEventTime := minStarts vp
    let lastEventTime := maxEnds vp
    let totalDurationMinutes : ℚ := ((lastEventTime - firstEventTime : ℤ) : ℚ) / 60000
    let avg : ℚ :=
      if 0 < totalDurationMinutes then totalHandleTimeMinutes / totalDurationMinutes else 0
    ⟨sweepPeak events, avg, some (firstEventTime, lastEventTime)⟩

/-- Helper for `specAvgConcurrency`: starting after the first event with
counter `current` and previous timestamp `prevTime`, accumulate
`counterValue × durationToNextEvent` across the remaining events. -/
def specWeightedGo (prevTime current : Int) : List Event → Int
  | [] => 0
  | e :: rest => current * (e.time - prevTime) + specWeightedGo e.time (current + delta e) rest

/-- The specification's definition of the time-weighted average concurrency,
written from the spec's words (§4.4): accumulate
`counterValue × durationToNextEvent` across consecutive pairs of the
time-sorted events and divide by the total covered duration (the span from
the first to the last sorted event). -/
def specAvgConcurrency (rows : List Row) : ℚ :=
  match sortEvents (eventsOf rows) with
  | [] => 0
  | e0 :: rest =>
      ((specWeightedGo e0.time (delta e0) rest : ℤ) : ℚ) /
        ((((rest.getLastD e0).time - e0.time : ℤ) : ℚ))

/-- The tie-break property claimed for the sweep: among events sharing a
timestamp, starts come before ends (no end event precedes a start event at
the same instant). -/
def startsFirstAtTies (l : List Event) : Prop :=
  l.Pairwise (fun a b => a.time = b.time → b.isStart = true → a.isStart = true)

instance (l : List Event) : Decidable (startsFirstAtTies l) := by
  unfold startsFirstAtTies
  infer_instance

/-! ## Map-reduce summarizer (`generateSummary` in `src/unnamed/part_003`)

Per-row insights are modelled as their JSON strings (`JSON.stringify(r.insight)`).
The intermediate batch calls are asynchronous external calls: their outcomes
are modelled as a list `outcomes : List (Option String)`, one entry per batch
in order, `none` standing for a failed call (the source's `catch` returns
`null` for a failed batch).  `safeJsonParse` succeeding is modelled by a
predicate `parses`. -/

/-- Worker for `chunk25`; `fuel` bounds the length so the recursion is
structural. -/
def chunkGo : Nat → List String → List (List String)
  | _, [] => []
  | 0, l => [l]
  | fuel + 1, l => l.take 25 :: chunkGo fuel (l.drop 25)

/-- The batching loop
`for (let i = 0; i < validResults.length; i += BATCH_SIZE) batches.push(validResults.slice(i, i + BATCH_SIZE))`
with `BATCH_SIZE = 25`. -/
def chunk25 (l : List String) : List (List String) := chunkGo l.length l

/-- The shape of the reduce phase: either one direct final call over all
valid results, or intermediate batch calls followed by one final call over
the surviving batch summaries. -/
inductive ReducePlan where
  | direct (finalInput : List String)
  | batched (batches : List (List String)) (finalInput : List String)
deriving DecidableEq

/-- The data-flow of `generateSummary` after filtering `validResults`:
if `validResults.length <= BATCH_SIZE` the final call input is all valid
results; otherwise the batches are the 25-chunks, and the final call input is
the surviving batch results (`r !== null && safeJsonParse(r)`). -/
def generateSummaryPlan (valid : List String) (outcomes : List (Option String))
    (parses : String → Bool) : ReducePlan :=
  if valid.length ≤ 25 then .direct valid
  else .batched (chunk25 valid) ((outcomes.filterMap id).filter parses)

/-- Claim C6 exactly as stated: *below* the threshold (strictly fewer than 25
usable results) one direct final call, *otherwise* (25 or more) the map-reduce
path over the 25-chunks. -/
def summarizerClaimAsStated : Prop :=
  ∀ (valid : List String) (outcomes : List (Option String)) (parses : String → Bool),
    (valid.length < 25 → generateSummaryPlan valid outcomes parses = .direct valid) ∧
    (25 ≤ valid.length →
      generateSummaryPlan valid outcomes parses =
        .batched (chunk25 valid) ((outcomes.filterMap id).filter parses))

/-! ## Ingestion step (`step:` callback of `Papa.parse` in `WORKER_CODE`)

One row's processing: normalize field names, expand the packed
`custom metrics` field, and update the inverted index.  Field maps are
functions `String → Option String` (`none` for a missing field and for the
explicit `null` the source stores for a metric without a value; the index
update skips both, exactly as `value != null && value !== ''` does). -/

/-- The `standardHeaders` set of `WORKER_CODE`. -/
def standardHeaders : List String :=
  ["conversation id", "domain", "created", "ended", "finished", "status", "channel",
   "primary agent email", "primary agent handle time", "primary agent answer speed",
   "pickup sla violation", "escalated", "escalation queue", "escalation reason",
   "abandoned", "amelia handled", "amelia abandoned", "agent handled", "agent abandoned",
   "escalate abandoned", "total handle time", "executed bpns", "user name", "user email",
   "user external uid", "disconnect wait time", "after conversation time",
   "after conversation violation", "resolution codes", "custom metrics", "transcript"]

/-- Point update of a field map. -/
def setField (m : String → Option String) (k : String) (v : Option String) :
    String → Option String :=
  fun k' => if k' = k then v else m k'

/-- `for (const key in row) processedRow[key.trim().toLowerCase()] = row[key];`
over the raw cells in object-key order. -/
def normalizeRow (raw : List (String × String)) : String → Option String :=
  raw.foldl (fun m kv => setField m (jsToLower (jsTrim kv.1)) (some kv.2)) (fun _ => none)

/-- Processing of one `key=value` metric inside the
`customMetricsRaw.split('||').forEach` loop, acting on the row map and the
`customMetricKeys` set (a JS `Set`, modelled as a first-occurrence list). -/
def expandMetric (st : (String → Option String) × List String) (metric : String) :
    (String → Option String) × List String :=
  let parts := jsSplit metric "="
  let key := parts.headD ""
  let value := (parts[1]?).getD ""
  if key = "" then st
  else
    let trimmedKey0 := jsTrim key
    let trimmedKey :=
      if standardHeaders.contains (jsToLower trimmedKey0) then trimmedKey0 ++ "_Custom"
      else trimmedKey0
    let lowerTrimmedKey := jsToLower trimmedKey
    let row' := setField st.1 lowerTrimmedKey (if value = "" then none else some (jsTrim value))
    let keys' := if st.2.contains trimmedKey then st.2 else st.2 ++ [trimmedKey]
    (row', keys')

/-- The custom-metrics expansion block: read `processedRow['custom metrics']`
(`'' ` when absent), and when nonempty split it on `'||'` and fold each
metric through `expandMetric`. -/
def expandCustomMetrics (row : String → Option String) (keys : List String) :
    (String → Option String) × List String :=
  let customMetricsRaw := (row "custom metrics").getD ""
  if customMetricsRaw = "" then (row, keys)
  else (jsSplit customMetricsRaw "||").foldl expandMetric (row, keys)

/-- `[...new Set(list)]`: deduplicate keeping first occurrences. -/
def jsDedup (l : List String) : List String :=
  l.foldl (fun acc x => if acc.contains x then acc else acc ++ [x]) []

/-- The index-update loop over `allKeysForIndexing = [...new Set([...headers,
...customMetricKeys])]`: for each key, when the row holds a non-null,
nonempty value, append the row id to `filterIndexes[cleanHeader][value]`. -/
def updateIndex (idx : String → String → List Nat) (headers customKeys : List String)
    (row : String → Option String) (rowIndex : Nat) : String → String → List Nat :=
  (jsDedup (headers ++ customKeys)).foldl
    (fun idx header =>
      let cleanHeader := jsTrim header
      let lowerHeader := jsToLower cleanHeader
      match row lowerHeader with
      | none => idx
      | some v =>
          if v = "" then idx
          else fun h' v' =>
            if h' = cleanHeader ∧ v' = v then idx h' v' ++ [rowIndex] else idx h' v')
    idx

/-- The observable result of one `step:` callback. -/
structure StepResult where
  row : String → Option String
  customKeys : List String
  index : String → String → List Nat

/-- One `step:` callback: normalize the raw cells, expand custom metrics,
then update the inverted index for all headers and custom keys. -/
def stepRow (headers customKeys0 : List String) (idx0 : String → String → List Nat)
    (raw : List (String × String)) (rowIndex : Nat) : StepResult :=
  let row0 := normalizeRow raw
  let rk := expandCustomMetrics row0 customKeys0
  { row := rk.1, customKeys := rk.2,
    index := updateIndex idx0 headers rk.2 rk.1 rowIndex }

/-! ## Demonstration data used by witnesses -/

/-- A small store with three (unmaterialized) rows and an empty index. -/
def demoStore : DataStore := ⟨[], fun _ _ => [], 3⟩

/-- A demonstration scheduler trace: two submissions, two dispatches spaced
by the minimum delay, one completion. -/
def demoTrace : List Timed :=
  [⟨0, .enqueue⟩, ⟨10, .enqueue⟩, ⟨10, .dispatch⟩, ⟨15, .dispatch⟩, ⟨20, .complete⟩]

/-- A row with no extra fields and the given parsed timestamps. -/
def mkRow (s e : Int) : Row := ⟨some s, some e, fun _ => none⟩

/-- Two well-formed rows meeting at instant `5`: the first ends exactly when
the second starts. -/
def demoRowsTie : List Row := [mkRow 0 5, mkRow 5 10]

/-- A single malformed row whose `finished` timestamp precedes its `created`
timestamp. -/
def demoRowsReversed : List Row := [mkRow 5 1]

/-- A well-formed row plus a malformed (reversed) one; timestamps are in
milliseconds (`60000` = one minute). -/
def demoRowsMixed : List Row := [mkRow 0 60000, mkRow 240000 120000]

/-- A raw CSV row carrying the packed metrics `"Region=US||Tier=Gold"`. -/
def demoRawRow : List (String × String) :=
  [("Custom Metrics", "Region=US||Tier=Gold"), ("Status", "open")]

/-- A raw CSV row whose packed metric key `Status` collides with the standard
field `status`. -/
def demoCollisionRow : List (String × String) :=
  [("Status", "open"), ("Custom Metrics", "Status=Zombie")]

/-- The headers of the demonstration CSV. -/
def demoHeaders : List String := ["Custom Metrics", "Status"]

/-! ## Theorems

### C1 — filter engine: empty specification and subset invariant -/

theorem applyFilterStep_subset (st : DataStore) (cands : List Nat) (k : String)
    (fv : FilterValue) : applyFilterStep st cands k fv ⊆ cands := by
  unfold applyFilterStep
  split
  · match fv with
    | .dateRange lo hi =>
        match lo, hi with
        | none, none => simp
        | none, some hi => simp [List.filter_subset']
        | some lo, none => simp [List.filter_subset']
        | some lo, some hi => simp [List.filter_subset']
    | .values vs => simp [List.filter_subset']
    | .substr s => simp [List.filter_subset']
  · exact List.filter_subset' _

theorem applyFilters_foldl_subset (st : DataStore) (fs : List (String × FilterValue))
    (acc : List Nat) :
    fs.foldl
      (fun cands kv => if cands.isEmpty then cands else applyFilterStep st cands kv.1 kv.2)
      acc ⊆ acc := by
  induction fs generalizing acc with
  | nil => exact fun _ h => h
  | cons kv fs ih =>
      intro x hx
      have step_sub :
          (if acc.isEmpty then acc else applyFilterStep st acc kv.1 kv.2) ⊆ acc := by
        split
        · exact fun _ h => h
        · exact applyFilterStep_subset st acc kv.1 kv.2
      exact step_sub (ih _ hx)

/-- C1: for every loaded dataset, `applyFilters` on the empty filter
specification returns exactly the full row-id range `[0, totalRows)`, and for
every filter specification the returned row ids are a subset of
`[0, totalRows)`. -/
theorem applyFilters_empty_eq_range_and_subset (st : DataStore) :
    applyFilters st [] = List.range st.totalRows ∧
      ∀ fs : List (String × FilterValue), applyFilters st fs ⊆ List.range st.totalRows := by
  refine ⟨rfl, fun fs => ?_⟩
  exact applyFilters_foldl_subset st fs (List.range st.totalRows)

/-- Witness for C1 at a concrete store and specification. -/
theorem applyFilters_empty_eq_range_and_subset_witness :
    applyFilters demoStore [] = List.range 3 ∧ (0 : Nat) ∈ List.range 3 :=
  ⟨(applyFilters_empty_eq_range_and_subset demoStore).1,
    (applyFilters_empty_eq_range_and_subset demoStore).2
      [("dateRange", FilterValue.dateRange none none)] (by decide)⟩

/-! ### C10 — an empty value list or empty substring empties the result -/

theorem applyFilters_foldl_nil (st : DataStore) (fs : List (String × FilterValue)) :
    fs.foldl
      (fun cands kv => if cands.isEmpty then cands else applyFilterStep st cands kv.1 kv.2)
      [] = [] := by
  induction fs with
  | nil => rfl
  | cons kv fs ih => simpa using ih

theorem applyFilterStep_empty_entry (st : DataStore) (cands : List Nat) (k : String)
    (fv : FilterValue) (hk : k ≠ "dateRange")
    (hfv : fv = FilterValue.values [] ∨ fv = FilterValue.substr "") :
    applyFilterStep st cands k fv = [] := by
  unfold applyFilterStep
  rw [if_neg hk]
  rcases hfv with h | h <;> subst h <;> simp

/-- C10: a filter entry under any non-`dateRange` key whose value is an
empty list of accepted values or an empty substring makes `applyFilters`
return the empty set (it is not a no-op). -/
theorem applyFilters_empty_entry_empties (st : DataStore)
    (pre post : List (String × FilterValue)) (k : String) (fv : FilterValue)
    (hk : k ≠ "dateRange")
    (hfv : fv = FilterValue.values [] ∨ fv = FilterValue.substr "") :
    applyFilters st (pre ++ (k, fv) :: post) = [] := by
  unfold applyFilters
  rw [List.foldl_append, List.foldl_cons]
  set c := pre.foldl
    (fun cands kv => if cands.isEmpty then cands else applyFilterStep st cands kv.1 kv.2)
    (List.range st.totalRows) with hc
  have hstep : (if c.isEmpty then c else applyFilterStep st c k fv) = [] := by
    split
    · next h => exact List.isEmpty_iff.mp h
    · exact applyFilterStep_empty_entry st c k fv hk hfv
  rw [hstep]
  exact applyFilters_foldl_nil st post

/-- Witness for C10 on a three-row store. -/
theorem applyFilters_empty_entry_empties_witness :
    applyFilters demoStore [("status", FilterValue.values [])] = [] :=
  applyFilters_empty_entry_empties demoStore [] [] "status" (FilterValue.values [])
    (by decide) (Or.inl rfl)

/-! ### C2 — scheduler concurrency cap and dispatch spacing -/

theorem qstep_active_le (maxC : Nat) (minDelay : ℚ) (s s' : QState) (e : Timed)
    (hs : s.active ≤ maxC) (h : qstep maxC minDelay s e = some s') :
    s'.active ≤ maxC := by
  unfold qstep at h
  split at h
  · exact absurd h (by simp)
  · match e with
    | ⟨t, .enqueue⟩ =>
        simp only at h
        cases h
        exact hs
    | ⟨t, .dispatch⟩ =>
        simp only at h
        split at h
        · next hg =>
            cases h
            exact hg.2.1
        · exact absurd h (by simp)
    | ⟨t, .complete⟩ =>
        simp only at h
        split at h
        · cases h
          exact le_trans (Nat.sub_le _ _) hs
        · exact absurd h (by simp)

theorem runTrace_active_le (maxC : Nat) (minDelay : ℚ) (tr : List Timed) (s s' : QState)
    (hs : s.active ≤ maxC) (h : runTrace maxC minDelay s tr = some s') :
    s'.active ≤ maxC := by
  induction tr generalizing s with
  | nil =>
      cases h
      exact hs
  | cons e tr ih =>
      unfold runTrace at h
      cases hq : qstep maxC minDelay s e with
      | none => rw [hq] at h; exact absurd h (by simp)
      | some s₁ =>
          rw [hq] at h
          exact ih s₁ (qstep_active_le maxC minDelay s s₁ e hs hq) h

theorem runTrace_dispatch_chain (maxC : Nat) (minDelay : ℚ) (tr : List Timed)
    (s s' : QState) (h : runTrace maxC minDelay s tr = some s') :
    List.Chain' (fun a b : ℚ => a + minDelay ≤ b)
      (s.lastRequestTime :: dispatchTimes tr) := by
  induction tr generalizing s with
  | nil => simp [dispatchTimes]
  | cons e tr ih =>
      unfold runTrace at h
      cases hq : qstep maxC minDelay s e with
      | none => rw [hq] at h; exact absurd h (by simp)
      | some s₁ =>
          rw [hq] at h
          have hchain := ih s₁ h
          unfold qstep at hq
          split at hq
          · exact absurd hq (by simp)
          · match e with
            | ⟨t, .enqueue⟩ =>
                simp only at hq
                cases hq
                simpa [dispatchTimes] using hchain
            | ⟨t, .dispatch⟩ =>
                simp only at hq
                split at hq
                · next hg =>
                    cases hq
                    have : dispatchTimes (⟨t, SEvent.dispatch⟩ :: tr) =
                        t :: dispatchTimes tr := by simp [dispatchTimes]
                    rw [this]
                    exact List.Chain'.cons hg.2.2 hchain
                · exact absurd hq (by simp)
            | ⟨t, .complete⟩ =>
                simp only at hq
                split at hq
                · cases hq
                  simpa [dispatchTimes] using hchain
                · exact absurd hq (by simp)

/-- C2: along every valid scheduler trace, the in-flight count never exceeds
the concurrency cap, and consecutive dispatch instants are at least the
minimum inter-dispatch interval apart. -/
theorem requestQueue_cap_and_spacing (maxC : Nat) (minDelay : ℚ) (tr : List Timed)
    (s' : QState) (h : runTrace maxC minDelay initialQState tr = some s') :
    s'.active ≤ maxC ∧
      List.Chain' (fun a b : ℚ => a + minDelay ≤ b) (dispatchTimes tr) :=
  ⟨runTrace_active_le maxC minDelay tr initialQState s' (Nat.zero_le _) h,
    (runTrace_dispatch_chain maxC minDelay tr initialQState s' h).tail⟩

/-- Witness for C2 on the demonstration trace (cap 2, minimum delay 5). -/
theorem requestQueue_cap_and_spacing_witness :
    (⟨0, 1, 15, 20⟩ : QState).active ≤ 2 ∧
      List.Chain' (fun a b : ℚ => a + 5 ≤ b) (dispatchTimes demoTrace) :=
  requestQueue_cap_and_spacing 2 5 demoTrace ⟨0, 1, 15, 20⟩
    (by norm_num [demoTrace, runTrace, qstep, initialQState])

/-! ### C9 — `clear` resets the queue and in-flight counter but not the
last-dispatch timestamp -/

/-- Counterexample to C9 as stated: `clear` does *not* reset the
last-dispatch timestamp bookkeeping — on a state whose `lastRequestTime` is
`42` it stays `42`, not the initial `0`. -/
theorem clearQ_keeps_lastRequestTime :
    (clearQ ⟨3, 2, 42, 50⟩).lastRequestTime = 42 ∧ (42 : ℚ) ≠ 0 := by
  constructor
  · rfl
  · norm_num

/-- C9 (amended): `clear` discards all pending tasks and resets the in-flight
counter, leaves `lastRequestTime` (and the clock) unchanged, and modifies
nothing else. -/
theorem clearQ_spec (s : QState) :
    (clearQ s).queue = 0 ∧ (clearQ s).active = 0 ∧
      (clearQ s).lastRequestTime = s.lastRequestTime ∧ (clearQ s).now = s.now :=
  ⟨rfl, rfl, rfl, rfl⟩

/-! ### C6 — map-reduce summarizer batching -/

theorem chunkGo_flatten (fuel : Nat) (l : List String) (h : l.length ≤ fuel) :
    (chunkGo fuel l).flatten = l := by
  induction fuel generalizing l with
  | zero =>
      cases l with
      | nil => rfl
      | cons a l => simp at h
  | succ fuel ih =>
      cases l with
      | nil => rfl
      | cons a l =>
          have hlen : ((a :: l).drop 25).length ≤ fuel := by
            simp only [List.length_drop, List.length_cons] at h ⊢
            omega
          calc (chunkGo (fuel + 1) (a :: l)).flatten
              = (a :: l).take 25 ++ (chunkGo fuel ((a :: l).drop 25)).flatten := rfl
            _ = (a :: l).take 25 ++ (a :: l).drop 25 := by rw [ih _ hlen]
            _ = a :: l := List.take_append_drop 25 (a :: l)

theorem chunkGo_mem (fuel : Nat) (l : List String) (h : l.length ≤ fuel)
    (b : List String) (hb : b ∈ chunkGo fuel l) : b.length ≤ 25 ∧ b ≠ [] := by
  induction fuel generalizing l with
  | zero =>
      cases l with
      | nil => simp [chunkGo] at hb
      | cons a l => simp at h
  | succ fuel ih =>
      cases l with
      | nil => simp [chunkGo] at hb
      | cons a l =>
          have hlen : ((a :: l).drop 25).length ≤ fuel := by
            simp only [List.length_drop, List.length_cons] at h ⊢
            omega
          have hb' : b = (a :: l).take 25 ∨ b ∈ chunkGo fuel ((a :: l).drop 25) := by
            simpa [chunkGo] using hb
          rcases hb' with hb' | hb'
          · subst hb'
            refine ⟨by simp, ?_⟩
            simp
          · exact ih _ hlen hb'

/-- Counterexample to C6 as stated: with exactly 25 usable results the source
takes the direct single-call path (`validResults.length <= BATCH_SIZE`),
whereas the claim's "below the threshold … otherwise partition" wording
demands the batched path at 25. -/
theorem summarizer_threshold_counterexample : ¬ summarizerClaimAsStated := by
  intro h
  have h25 := (h (List.replicate 25 "i") [] (fun _ => true)).2 (by simp)
  simp [generateSummaryPlan] at h25

/-- C6 (amended): with 25 or fewer usable results all of them feed one direct
final reduction call; with more than 25, the results are partitioned into
consecutive batches of at most 25 (concatenating the batches gives back the
results, every batch is nonempty and of size ≤ 25, and 60 results give
batches of sizes 25, 25, 10), each batch outcome may fail without aborting
the run, and the surviving batch summaries feed exactly one final reduction
call. -/
theorem generateSummaryPlan_spec (valid : List String) (outcomes : List (Option String))
    (parses : String → Bool) :
    (valid.length ≤ 25 →
        generateSummaryPlan valid outcomes parses = ReducePlan.direct valid) ∧
    (25 < valid.length →
        generateSummaryPlan valid outcomes parses =
          ReducePlan.batched (chunk25 valid) ((outcomes.filterMap id).filter parses) ∧
        (chunk25 valid).flatten = valid ∧
        ∀ b ∈ chunk25 valid, b.length ≤ 25 ∧ b ≠ []) ∧
    (chunk25 (List.replicate 60 "i")).map List.length = [25, 25, 10] := by
  refine ⟨fun hle => ?_, fun hlt => ?_, by decide⟩
  · simp [generateSummaryPlan, hle]
  · refine ⟨by simp [generateSummaryPlan, Nat.not_le.mpr hlt], ?_, ?_⟩
    · exact chunkGo_flatten valid.length valid le_rfl
    · exact fun b hb => chunkGo_mem valid.length valid le_rfl b hb

/-- Witness for C6 (amended) at 26 usable results with one failed batch. -/
theorem generateSummaryPlan_spec_witness :
    25 < (List.replicate 26 "i").length ∧
      generateSummaryPlan (List.replicate 26 "i") [some "a", none] (fun _ => true) =
        ReducePlan.batched (chunk25 (List.replicate 26 "i"))
          (([some "a", none].filterMap id).filter (fun _ => true)) :=
  ⟨by decide,
    ((generateSummaryPlan_spec (List.replicate 26 "i") [some "a", none]
        (fun _ => true)).2.1 (by decide)).1⟩

/-! ### C8 — reduce phase with zero successful batches -/

/-- C8 failing input: 26 usable results split into two batches whose
reductions both fail.  The source still proceeds to the final reduction call
with an *empty* surviving-summaries input (`finalInputForSummary = ''`)
instead of reporting a failure, contradicting the spec's requirement. -/
theorem generateSummary_zero_successful_batches :
    generateSummaryPlan (List.replicate 26 "i") [none, none] (fun _ => true) =
      ReducePlan.batched (chunk25 (List.replicate 26 "i")) [] := by
  decide

/-! ### C7 — packed custom metrics expansion and indexing -/

/-- C7: ingesting a record whose packed metrics field is
`"Region=US||Tier=Gold"` expands it into custom fields `region = "US"` and
`tier = "Gold"` on the record, and both are added to the inverted index
(under their original-cased custom keys); a custom key colliding with a
standard field name (`Status`) is renamed with the `_Custom` suffix, leaving
the standard field's value intact. -/
theorem stepRow_custom_metrics_expansion :
    ((stepRow demoHeaders [] (fun _ _ => []) demoRawRow 0).row "region" = some "US" ∧
     (stepRow demoHeaders [] (fun _ _ => []) demoRawRow 0).row "tier" = some "Gold" ∧
     (stepRow demoHeaders [] (fun _ _ => []) demoRawRow 0).index "Region" "US" = [0] ∧
     (stepRow demoHeaders [] (fun _ _ => []) demoRawRow 0).index "Tier" "Gold" = [0] ∧
     (stepRow demoHeaders [] (fun _ _ => []) demoRawRow 0).customKeys = ["Region", "Tier"]) ∧
    ((stepRow demoHeaders [] (fun _ _ => []) demoCollisionRow 0).row "status_custom" =
        some "Zombie" ∧
     (stepRow demoHeaders [] (fun _ _ => []) demoCollisionRow 0).row "status" = some "open" ∧
     (stepRow demoHeaders [] (fun _ _ => []) demoCollisionRow 0).index "Status_Custom"
        "Zombie" = [0] ∧
     (stepRow demoHeaders [] (fun _ _ => []) demoCollisionRow 0).customKeys =
        ["Status_Custom"]) := by
  decide

/-! ### C3 — tie-break order and nonnegativity of the sweep counter -/

theorem deltaSum_nil : deltaSum [] = 0 := rfl

theorem deltaSum_cons (e : Event) (l : List Event) :
    deltaSum (e :: l) = delta e + deltaSum l := by
  simp [deltaSum]

theorem deltaSum_append (X Y : List Event) :
    deltaSum (X ++ Y) = deltaSum X + deltaSum Y := by
  simp [deltaSum]

theorem sweepNeverNeg_append (c : Int) (X Y : List Event) :
    sweepNeverNeg c (X ++ Y) =
      (sweepNeverNeg c X && sweepNeverNeg (c + deltaSum X) Y) := by
  induction X generalizing c with
  | nil => simp [sweepNeverNeg, deltaSum]
  | cons e X ih =>
      have hL : sweepNeverNeg c ((e :: X) ++ Y) =
          (decide (0 ≤ c + delta e) && sweepNeverNeg (c + delta e) (X ++ Y)) := rfl
      have hR : sweepNeverNeg c (e :: X) =
          (decide (0 ≤ c + delta e) && sweepNeverNeg (c + delta e) X) := rfl
      rw [hL, hR, ih, deltaSum_cons, ← add_assoc, Bool.and_assoc]

theorem sweepNeverNeg_mono (c c' : Int) (l : List Event) (hcc : c ≤ c')
    (h : sweepNeverNeg c l = true) : sweepNeverNeg c' l = true := by
  induction l generalizing c c' with
  | nil => rfl
  | cons e l ih =>
      simp only [sweepNeverNeg, Bool.and_eq_true, decide_eq_true_eq] at h ⊢
      exact ⟨by omega, ih (c + delta e) (c' + delta e) (by omega) h.2⟩

theorem sweepNeverNeg_nonneg_total (c : Int) (l : List Event) (h0 : 0 ≤ c)
    (h : sweepNeverNeg c l = true) : 0 ≤ c + deltaSum l := by
  induction l generalizing c with
  | nil => simpa [deltaSum] using h0
  | cons e l ih =>
      simp only [sweepNeverNeg, Bool.and_eq_true, decide_eq_true_eq] at h
      have := ih (c + delta e) h.1 h.2
      rw [deltaSum_cons]
      omega

theorem takeWhile_append_mid {α : Type} (q : α → Bool) (X : List α) (y : α) (Z : List α)
    (hy : q y = false) : (X ++ y :: Z).takeWhile q = X.takeWhile q := by
  induction X with
  | nil => simp [List.takeWhile, hy]
  | cons x X ih =>
      simp only [List.cons_append, List.takeWhile]
      cases q x <;> simp [ih]

theorem dropWhile_append_mid {α : Type} (q : α → Bool) (X : List α) (y : α) (Z : List α)
    (hy : q y = false) : (X ++ y :: Z).dropWhile q = X.dropWhile q ++ y :: Z := by
  induction X with
  | nil => simp [List.dropWhile, hy]
  | cons x X ih =>
      simp only [List.cons_append, List.dropWhile]
      cases q x <;> simp [ih]

/-- Inserting an end event and then (stably) a start event at a no-later
timestamp into a list splices them in with the start strictly before the end. -/
theorem orderedInsert_pair_splice (s e : Event) (hse : s.time ≤ e.time)
    (L : List Event) :
    ∃ A1 A2 B, L = A1 ++ (A2 ++ B) ∧
      List.orderedInsert timeLE s (List.orderedInsert timeLE e L) =
        A1 ++ s :: (A2 ++ e :: B) := by
  classical
  set p : Event → Bool := fun b => decide ¬ timeLE e b with hp
  set q : Event → Bool := fun b => decide ¬ timeLE s b with hq
  have hqe : q e = false := by
    simp [hq, timeLE, hse]
  have h1 : List.orderedInsert timeLE e L = L.takeWhile p ++ e :: L.dropWhile p :=
    List.orderedInsert_eq_take_drop timeLE e L
  set A := L.takeWhile p with hA
  set B := L.dropWhile p with hB
  have h2 : List.orderedInsert timeLE s (A ++ e :: B) =
      (A ++ e :: B).takeWhile q ++ s :: (A ++ e :: B).dropWhile q :=
    List.orderedInsert_eq_take_drop timeLE s (A ++ e :: B)
  refine ⟨A.takeWhile q, A.dropWhile q, B, ?_, ?_⟩
  · rw [← List.append_assoc, List.takeWhile_append_dropWhile, hA, hB,
      List.takeWhile_append_dropWhile]
  · rw [h1, h2, takeWhile_append_mid q A e B hqe, dropWhile_append_mid q A e B hqe]

/-- The ballot splice: inserting a start before an end into a never-negative
event sequence keeps it never negative. -/
theorem sweepNeverNeg_splice (c : Int) (A1 A2 B : List Event) (s e : Event)
    (hs : s.isStart = true) (he : e.isStart = false) (h0 : 0 ≤ c)
    (h : sweepNeverNeg c (A1 ++ (A2 ++ B)) = true) :
    sweepNeverNeg c (A1 ++ s :: (A2 ++ e :: B)) = true := by
  have hds : delta s = 1 := by simp [delta, hs]
  have hde : delta e = -1 := by simp [delta, he]
  rw [sweepNeverNeg_append, Bool.and_eq_true, sweepNeverNeg_append, Bool.and_eq_true] at h
  obtain ⟨h1, h2, h3⟩ := h
  have a1 : 0 ≤ c + deltaSum A1 := sweepNeverNeg_nonneg_total c A1 h0 h1
  have a2 : 0 ≤ c + deltaSum A1 + deltaSum A2 := by
    have := sweepNeverNeg_nonneg_total (c + deltaSum A1) A2 a1 h2
    omega
  rw [sweepNeverNeg_append, Bool.and_eq_true]
  refine ⟨h1, ?_⟩
  show sweepNeverNeg (c + deltaSum A1) (s :: (A2 ++ e :: B)) = true
  simp only [sweepNeverNeg, Bool.and_eq_true, decide_eq_true_eq, hds]
  refine ⟨by omega, ?_⟩
  rw [sweepNeverNeg_append, Bool.and_eq_true]
  refine ⟨sweepNeverNeg_mono _ _ _ (by omega) h2, ?_⟩
  simp only [sweepNeverNeg, Bool.and_eq_true, decide_eq_true_eq, hde]
  refine ⟨by omega, ?_⟩
  exact sweepNeverNeg_mono _ _ _ (by omega) h3

/-- Over well-formed `(start, end)` pairs, the stable time-sort of the pushed
events keeps the sweep counter nonnegative. -/
theorem sweepNeverNeg_insertionSort_pairs (vp : List (Int × Int))
    (h : ∀ p ∈ vp, p.1 ≤ p.2) :
    sweepNeverNeg 0
      (List.insertionSort timeLE
        (vp.flatMap (fun p => [⟨p.1, true⟩, ⟨p.2, false⟩]))) = true := by
  induction vp with
  | nil => rfl
  | cons p rest ih =>
      have hrest : ∀ q ∈ rest, q.1 ≤ q.2 := fun q hq => h q (List.mem_cons_of_mem _ hq)
      have hp : p.1 ≤ p.2 := h p (List.mem_cons_self _ _)
      have hflat :
          ((p :: rest).flatMap (fun p => [(⟨p.1, true⟩ : Event), ⟨p.2, false⟩])) =
            ⟨p.1, true⟩ :: ⟨p.2, false⟩ ::
              rest.flatMap (fun p => [(⟨p.1, true⟩ : Event), ⟨p.2, false⟩]) := rfl
      rw [hflat]
      show sweepNeverNeg 0
        (List.orderedInsert timeLE ⟨p.1, true⟩
          (List.orderedInsert timeLE ⟨p.2, false⟩
            (List.insertionSort timeLE
              (rest.flatMap (fun p => [(⟨p.1, true⟩ : Event), ⟨p.2, false⟩]))))) = true
      obtain ⟨A1, A2, B, hL, hins⟩ :=
        orderedInsert_pair_splice ⟨p.1, true⟩ ⟨p.2, false⟩ hp
          (List.insertionSort timeLE
            (rest.flatMap (fun p => [(⟨p.1, true⟩ : Event), ⟨p.2, false⟩])))
      rw [hins]
      refine sweepNeverNeg_splice 0 A1 A2 B _ _ rfl rfl le_rfl ?_
      rw [← hL]
      exact ih hrest

/-- Counterexample to C3 as stated: the source sorts events by time only, so
for rows `(0, 5)` and `(5, 10)` the end event at instant 5 is applied before
the start event at instant 5 (no starts-before-ends tie-break); moreover for
a malformed row whose end precedes its start the counter does go negative. -/
theorem sweep_tie_order_counterexample :
    ¬ startsFirstAtTies (sortEvents (eventsOf demoRowsTie)) ∧
      sweepNeverNeg 0 (sortEvents (eventsOf demoRowsReversed)) = false := by
  constructor
  · decide
  · decide

/-- C3 (amended): the sweep applies same-instant events in push order
(the sort is stable, with no starts-before-ends tie-break); nevertheless, for
every row set in which each contributing record has `start ≤ end`, the
running concurrency counter never goes negative at any point of the sweep. -/
theorem sweep_counter_never_negative (rows : List Row)
    (h : ∀ p ∈ validPairs rows, p.1 ≤ p.2) :
    sweepNeverNeg 0 (sortEvents (eventsOf rows)) = true :=
  sweepNeverNeg_insertionSort_pairs (validPairs rows) h

/-- Witness for C3 (amended) on the two rows meeting at instant 5. -/
theorem sweep_counter_never_negative_witness :
    sweepNeverNeg 0 (sortEvents (eventsOf demoRowsTie)) = true :=
  sweep_counter_never_negative demoRowsTie (by decide)

/-! ### C5 — the code's average concurrency vs the spec's sweep accumulation -/

theorem lastTime_cons (e : Event) (l : List Event) (d : Int) :
    lastTime (e :: l) d = lastTime l e.time := by
  simp only [lastTime, List.map_cons, List.getLastD_cons]

theorem time_getLastD (l : List Event) (d : Event) :
    (l.getLastD d).time = lastTime l d.time := by
  induction l generalizing d with
  | nil => rfl
  | cons x xs ih => rw [List.getLastD_cons, ih, lastTime_cons]

theorem specWeightedGo_closed (l : List Event) : ∀ prev c : Int,
    specWeightedGo prev c l =
      c * (lastTime l prev - prev) +
        (l.map (fun e => delta e * (lastTime l prev - e.time))).sum := by
  induction l with
  | nil => intro prev c; simp [specWeightedGo, lastTime]
  | cons e l ih =>
      intro prev c
      rw [show specWeightedGo prev c (e :: l) =
            c * (e.time - prev) + specWeightedGo e.time (c + delta e) l from rfl,
        ih, lastTime_cons]
      simp only [List.map_cons, List.sum_cons]
      ring

theorem events_weight_sum (vp : List (Int × Int)) (T : Int) :
    ((vp.flatMap (fun p => [(⟨p.1, true⟩ : Event), ⟨p.2, false⟩])).map
        (fun e => delta e * (T - e.time))).sum =
      (vp.map (fun p => p.2 - p.1)).sum := by
  induction vp with
  | nil => rfl
  | cons p rest ih =>
      have hflat : ((p :: rest).flatMap (fun p => [(⟨p.1, true⟩ : Event), ⟨p.2, false⟩])) =
          ⟨p.1, true⟩ :: ⟨p.2, false⟩ ::
            rest.flatMap (fun p => [(⟨p.1, true⟩ : Event), ⟨p.2, false⟩]) := rfl
      have h1 : delta ⟨p.1, true⟩ = 1 := rfl
      have h2 : delta ⟨p.2, false⟩ = -1 := rfl
      rw [hflat, List.map_cons, List.map_cons, List.sum_cons, List.sum_cons, ih,
        List.map_cons, List.sum_cons, h1, h2]
      ring

theorem foldl_min_le (l : List (Int × Int)) (a : Int) :
    (l.foldl (fun a q => min a q.1) a) ≤ a ∧
      ∀ q ∈ l, (l.foldl (fun a q => min a q.1) a) ≤ q.1 := by
  induction l generalizing a with
  | nil => exact ⟨le_rfl, by simp⟩
  | cons x l ih =>
      obtain ⟨h1, h2⟩ := ih (min a x.1)
      refine ⟨le_trans h1 (min_le_left _ _), ?_⟩
      intro q hq
      rcases List.mem_cons.mp hq with rfl | hq
      · exact le_trans h1 (min_le_right _ _)
      · exact h2 q hq

theorem foldl_min_mem (l : List (Int × Int)) (a : Int) :
    (l.foldl (fun a q => min a q.1) a) = a ∨
      ∃ q ∈ l, (l.foldl (fun a q => min a q.1) a) = q.1 := by
  induction l generalizing a with
  | nil => exact Or.inl rfl
  | cons x l ih =>
      rcases ih (min a x.1) with h | ⟨q, hq, h⟩
      · rcases min_cases a x.1 with ⟨hm, _⟩ | ⟨hm, _⟩
        · exact Or.inl (by rw [List.foldl_cons, h, hm])
        · exact Or.inr ⟨x, List.mem_cons_self _ _, by rw [List.foldl_cons, h, hm]⟩
      · exact Or.inr ⟨q, List.mem_cons_of_mem _ hq, by rw [List.foldl_cons, h]⟩

theorem minStarts_le (vp : List (Int × Int)) (p : Int × Int) (hp : p ∈ vp) :
    minStarts vp ≤ p.1 := by
  cases vp with
  | nil => cases hp
  | cons q rest =>
      rcases List.mem_cons.mp hp with rfl | hp
      · exact (foldl_min_le rest p.1).1
      · exact (foldl_min_le rest q.1).2 p hp

theorem minStarts_mem (vp : List (Int × Int)) (hvp : vp ≠ []) :
    ∃ p ∈ vp, minStarts vp = p.1 := by
  cases vp with
  | nil => exact absurd rfl hvp
  | cons q rest =>
      rcases foldl_min_mem rest q.1 with h | ⟨p, hp, h⟩
      · exact ⟨q, List.mem_cons_self _ _, h⟩
      · exact ⟨p, List.mem_cons_of_mem _ hp, h⟩

theorem foldl_max_ge (l : List (Int × Int)) (a : Int) :
    a ≤ (l.foldl (fun a q => max a q.2) a) ∧
      ∀ q ∈ l, q.2 ≤ (l.foldl (fun a q => max a q.2) a) := by
  induction l generalizing a with
  | nil => exact ⟨le_rfl, by simp⟩
  | cons x l ih =>
      obtain ⟨h1, h2⟩ := ih (max a x.2)
      refine ⟨le_trans (le_max_left _ _) h1, ?_⟩
      intro q hq
      rcases List.mem_cons.mp hq with rfl | hq
      · exact le_trans (le_max_right _ _) h1
      · exact h2 q hq

theorem foldl_max_mem (l : List (Int × Int)) (a : Int) :
    (l.foldl (fun a q => max a q.2) a) = a ∨
      ∃ q ∈ l, (l.foldl (fun a q => max a q.2) a) = q.2 := by
  induction l generalizing a with
  | nil => exact Or.inl rfl
  | cons x l ih =>
      rcases ih (max a x.2) with h | ⟨q, hq, h⟩
      · rcases max_cases a x.2 with ⟨hm, _⟩ | ⟨hm, _⟩
        · exact Or.inl (by rw [List.foldl_cons, h, hm])
        · exact Or.inr ⟨x, List.mem_cons_self _ _, by rw [List.foldl_cons, h, hm]⟩
      · exact Or.inr ⟨q, List.mem_cons_of_mem _ hq, by rw [List.foldl_cons, h]⟩

theorem maxEnds_ge (vp : List (Int × Int)) (p : Int × Int) (hp : p ∈ vp) :
    p.2 ≤ maxEnds vp := by
  cases vp with
  | nil => cases hp
  | cons q rest =>
      rcases List.mem_cons.mp hp with rfl | hp
      · exact (foldl_max_ge rest p.2).1
      · exact (foldl_max_ge rest q.2).2 p hp

theorem maxEnds_mem (vp : List (Int × Int)) (hvp : vp ≠ []) :
    ∃ p ∈ vp, maxEnds vp = p.2 := by
  cases vp with
  | nil => exact absurd rfl hvp
  | cons q rest =>
      rcases foldl_max_mem rest q.2 with h | ⟨p, hp, h⟩
      · exact ⟨q, List.mem_cons_self _ _, h⟩
      · exact ⟨p, List.mem_cons_of_mem _ hp, h⟩

theorem mem_eventsOf (rows : List Row) (ev : Event) :
    ev ∈ eventsOf rows ↔
      ∃ p ∈ validPairs rows, ev = ⟨p.1, true⟩ ∨ ev = ⟨p.2, false⟩ := by
  simp [eventsOf, List.mem_flatMap]

theorem sorted_sortEvents (l : List Event) : List.Sorted timeLE (sortEvents l) :=
  List.sorted_insertionSort timeLE l

theorem perm_sortEvents (l : List Event) : (sortEvents l).Perm l :=
  List.perm_insertionSort timeLE l

theorem sorted_head_le (a : Event) (l : List Event) (h : List.Sorted timeLE (a :: l))
    (x : Event) (hx : x ∈ a :: l) : a.time ≤ x.time := by
  rcases List.mem_cons.mp hx with rfl | hx
  · exact le_rfl
  · exact (List.sorted_cons.mp h).1 x hx

theorem sorted_le_getLastD : ∀ (l : List Event) (a : Event),
    List.Sorted timeLE (a :: l) → ∀ x ∈ a :: l, x.time ≤ (l.getLastD a).time := by
  intro l
  induction l with
  | nil =>
      intro a _ x hx
      rcases List.mem_cons.mp hx with rfl | hx
      · exact le_rfl
      · cases hx
  | cons b l ih =>
      intro a h x hx
      rw [List.getLastD_cons]
      have hbl : List.Sorted timeLE (b :: l) := h.of_cons
      rcases List.mem_cons.mp hx with rfl | hx
      · exact le_trans ((List.sorted_cons.mp h).1 b (List.mem_cons_self _ _))
          (ih b hbl b (List.mem_cons_self _ _))
      · exact ih b hbl x hx

theorem head_time_eq_minStarts (rows : List Row)
    (h : ∀ p ∈ validPairs rows, p.1 ≤ p.2) (e0 : Event) (rest : List Event)
    (hS : sortEvents (eventsOf rows) = e0 :: rest) :
    e0.time = minStarts (validPairs rows) := by
  have hperm := perm_sortEvents (eventsOf rows)
  have hsorted := sorted_sortEvents (eventsOf rows)
  rw [hS] at hperm hsorted
  have he0 : e0 ∈ eventsOf rows := hperm.mem_iff.mp (List.mem_cons_self _ _)
  obtain ⟨p, hp, hcase⟩ := (mem_eventsOf _ _).mp he0
  have hge : minStarts (validPairs rows) ≤ e0.time := by
    rcases hcase with rfl | rfl
    · exact minStarts_le _ p hp
    · exact le_trans (minStarts_le _ p hp) (h p hp)
  have hvpne : validPairs rows ≠ [] := by
    intro hemp
    rw [hemp] at hp
    cases hp
  obtain ⟨q, hq, hmin⟩ := minStarts_mem _ hvpne
  have hqS : (⟨q.1, true⟩ : Event) ∈ e0 :: rest :=
    hperm.mem_iff.mpr ((mem_eventsOf _ _).mpr ⟨q, hq, Or.inl rfl⟩)
  have hle : e0.time ≤ q.1 := sorted_head_le e0 rest hsorted _ hqS
  omega

theorem getLastD_time_eq_maxEnds (rows : List Row)
    (h : ∀ p ∈ validPairs rows, p.1 ≤ p.2) (e0 : Event) (rest : List Event)
    (hS : sortEvents (eventsOf rows) = e0 :: rest) :
    (rest.getLastD e0).time = maxEnds (validPairs rows) := by
  have hperm := perm_sortEvents (eventsOf rows)
  have hsorted := sorted_sortEvents (eventsOf rows)
  rw [hS] at hperm hsorted
  have hM : rest.getLastD e0 ∈ e0 :: rest := List.getLastD_mem_cons rest e0
  have hMev : rest.getLastD e0 ∈ eventsOf rows := hperm.mem_iff.mp hM
  obtain ⟨p, hp, hcase⟩ := (mem_eventsOf _ _).mp hMev
  have hle : (rest.getLastD e0).time ≤ maxEnds (validPairs rows) := by
    rcases hcase with heq | heq
    · rw [heq]
      exact le_trans (h p hp) (maxEnds_ge _ p hp)
    · rw [heq]
      exact maxEnds_ge _ p hp
  have hvpne : validPairs rows ≠ [] := by
    intro hemp
    rw [hemp] at hp
    cases hp
  obtain ⟨q, hq, hmax⟩ := maxEnds_mem _ hvpne
  have hqS : (⟨q.2, false⟩ : Event) ∈ e0 :: rest :=
    hperm.mem_iff.mpr ((mem_eventsOf _ _).mpr ⟨q, hq, Or.inr rfl⟩)
  have hge : q.2 ≤ (rest.getLastD e0).time :=
    sorted_le_getLastD rest e0 hsorted _ hqS
  omega

/-- Counterexample to C5 as stated: for a single record with valid but
reversed timestamps (`created = 5 ms`, `finished = 1 ms`), the code's average
(`0`, because the guard `totalDurationMinutes > 0` fails on the negative
span `latest end − earliest start`) differs from the spec's sweep
accumulation (`−1`). -/
theorem avg_concurrency_spec_counterexample :
    (calculateSummary demoRowsReversed).avgConcurrency ≠
      specAvgConcurrency demoRowsReversed := by
  simp only [calculateSummary, validPairs, eventsOf, sortEvents, List.insertionSort,
    List.orderedInsert, minStarts, maxEnds, sweepPeak, sweepStep, delta, timeLE,
    demoRowsReversed, mkRow, specAvgConcurrency, List.filterMap, List.flatMap,
    List.foldl, List.map, List.sum, List.isEmpty, List.getLastD]
  norm_num [specWeightedGo, delta]

/-- C5 (amended): for every row set whose contributing records all satisfy
`created ≤ finished`, the code's average concurrency — the sum of per-record
durations divided by `latest end − earliest start` (with the zero/negative
span guard) — equals the spec's definition: accumulating
`counterValue × durationToNextEvent` across consecutive sorted events and
dividing by the total covered duration. -/
theorem calculateSummary_avg_eq_spec (rows : List Row)
    (h : ∀ p ∈ validPairs rows, p.1 ≤ p.2) :
    (calculateSummary rows).avgConcurrency = specAvgConcurrency rows := by
  by_cases hvp : validPairs rows = []
  · have hE : eventsOf rows = [] := by
      unfold eventsOf
      rw [hvp]
      rfl
    have hS : sortEvents (eventsOf rows) = [] := by rw [hE]; rfl
    unfold calculateSummary specAvgConcurrency
    rw [hvp, hS]
    simp
  · cases hS : sortEvents (eventsOf rows) with
    | nil =>
        exfalso
        have hperm := perm_sortEvents (eventsOf rows)
        rw [hS] at hperm
        have hE : eventsOf rows = [] := hperm.symm.eq_nil
        cases hvp' : validPairs rows with
        | nil => exact hvp hvp'
        | cons p rest =>
            have : eventsOf rows =
                (p :: rest).flatMap (fun p => [(⟨p.1, true⟩ : Event), ⟨p.2, false⟩]) := by
              unfold eventsOf
              rw [hvp']
            rw [hE] at this
            exact absurd this.symm (by simp)
    | cons e0 rest =>
        have hvpB : (validPairs rows).isEmpty = false := by
          cases hvp' : validPairs rows with
          | nil => exact absurd hvp' hvp
          | cons p r => rfl
        have hcode : (calculateSummary rows).avgConcurrency =
            (if 0 < ((maxEnds (validPairs rows) - minStarts (validPairs rows) : ℤ) : ℚ) / 60000
             then ((((validPairs rows).map (fun p => p.2 - p.1)).sum : ℤ) : ℚ) / 60000 /
               (((maxEnds (validPairs rows) - minStarts (validPairs rows) : ℤ) : ℚ) / 60000)
             else 0) := by
          unfold calculateSummary
          simp only [hvpB, Bool.false_eq_true, if_false]
        have hspec : specAvgConcurrency rows =
            ((specWeightedGo e0.time (delta e0) rest : ℤ) : ℚ) /
              (((rest.getLastD e0).time - e0.time : ℤ) : ℚ) := by
          unfold specAvgConcurrency
          rw [hS]
        have hnum : specWeightedGo e0.time (delta e0) rest =
            ((validPairs rows).map (fun p => p.2 - p.1)).sum := by
          rw [specWeightedGo_closed]
          have hsum : (delta e0 * (lastTime rest e0.time - e0.time) +
              (rest.map (fun e => delta e * (lastTime rest e0.time - e.time))).sum) =
              (((e0 :: rest).map
                (fun e => delta e * (lastTime rest e0.time - e.time))).sum) := by
            rw [List.map_cons, List.sum_cons]
          rw [hsum]
          have hperm := perm_sortEvents (eventsOf rows)
          rw [hS] at hperm
          rw [(hperm.map (fun e => delta e * (lastTime rest e0.time - e.time))).sum_eq]
          exact events_weight_sum (validPairs rows) _
        have hden : (rest.getLastD e0).time - e0.time =
            maxEnds (validPairs rows) - minStarts (validPairs rows) := by
          rw [getLastD_time_eq_maxEnds rows h e0 rest hS,
            head_time_eq_minStarts rows h e0 rest hS]
        rw [hcode, hspec, hnum, hden]
        have hDnn : 0 ≤ maxEnds (validPairs rows) - minStarts (validPairs rows) := by
          obtain ⟨p, hp, hmin⟩ := minStarts_mem _ hvp
          have h1 := maxEnds_ge (validPairs rows) p hp
          have h2 := h p hp
          omega
        rcases lt_or_eq_of_le hDnn with hDpos | hDzero
        · have hQ : (0 : ℚ) <
              ((maxEnds (validPairs rows) - minStarts (validPairs rows) : ℤ) : ℚ) / 60000 :=
            div_pos (by exact_mod_cast hDpos) (by norm_num)
          rw [if_pos hQ]
          have hDne :
              (((maxEnds (validPairs rows) - minStarts (validPairs rows) : ℤ) : ℚ)) ≠ 0 :=
            ne_of_gt (by exact_mod_cast hDpos)
          field_simp
        · rw [← hDzero]
          simp

/-- Witness for C5 (amended) on the two well-formed rows meeting at
instant 5. -/
theorem calculateSummary_avg_eq_spec_witness :
    (calculateSummary demoRowsTie).avgConcurrency = specAvgConcurrency demoRowsTie :=
  calculateSummary_avg_eq_spec demoRowsTie (by decide)

/-! ### C4 — peak concurrency vs time-weighted average concurrency -/

theorem sweepStep_snd_ge (cm : Int × Int) (e : Event) : cm.2 ≤ (sweepStep cm e).2 := by
  unfold sweepStep
  split
  · dsimp only
    split <;> omega
  · exact le_rfl

theorem sweep_foldl_snd_ge (l : List Event) : ∀ cm : Int × Int,
    cm.2 ≤ (l.foldl sweepStep cm).2 := by
  induction l with
  | nil => intro cm; exact le_rfl
  | cons e l ih =>
      intro cm
      exact le_trans (sweepStep_snd_ge cm e) (ih (sweepStep cm e))

theorem sweepPeak_nonneg (l : List Event) : 0 ≤ sweepPeak l := by
  have := sweep_foldl_snd_ge l (0, 0)
  simpa [sweepPeak] using this

theorem sweepStep_fst (cm : Int × Int) (e : Event) :
    (sweepStep cm e).1 = cm.1 + delta e := by
  unfold sweepStep delta
  split <;> simp [sub_eq_add_neg]

theorem sweepStep_fst_le_snd (cm : Int × Int) (e : Event) (h : cm.1 ≤ cm.2) :
    (sweepStep cm e).1 ≤ (sweepStep cm e).2 := by
  unfold sweepStep
  split
  · dsimp only
    split <;> omega
  · dsimp only
    omega

theorem sweep_prefix_le (l : List Event) : ∀ cm : Int × Int, cm.1 ≤ cm.2 →
    ∀ p, p <+: l → cm.1 + deltaSum p ≤ (l.foldl sweepStep cm).2 := by
  induction l with
  | nil =>
      intro cm hcm p hp
      rw [List.prefix_nil.mp hp]
      simpa [deltaSum] using hcm
  | cons a l ih =>
      intro cm hcm p hp
      cases p with
      | nil =>
          rw [List.foldl_cons]
          have h1 := sweepStep_snd_ge cm a
          have h2 := sweep_foldl_snd_ge l (sweepStep cm a)
          simp only [deltaSum, List.map_nil, List.sum_nil, add_zero]
          omega
      | cons b p' =>
          obtain ⟨rfl, hp'⟩ := List.cons_prefix_cons.mp hp
          rw [List.foldl_cons, deltaSum_cons]
          have := ih (sweepStep cm b) (sweepStep_fst_le_snd cm b hcm) p' hp'
          rw [sweepStep_fst] at this
          omega

theorem sorted_filter_eq_takeWhile (t : Int) : ∀ l : List Event,
    List.Sorted timeLE l →
      l.filter (fun e => decide (e.time ≤ t)) =
        l.takeWhile (fun e => decide (e.time ≤ t)) := by
  intro l
  induction l with
  | nil => intro _; rfl
  | cons a l ih =>
      intro hs
      obtain ⟨ha, hl⟩ := List.sorted_cons.mp hs
      by_cases hat : a.time ≤ t
      · simp [List.filter_cons, List.takeWhile_cons, hat, ih hl]
      · have hfilter : (a :: l).filter (fun e => decide (e.time ≤ t)) = [] := by
          rw [List.filter_eq_nil_iff]
          intro b hb
          rcases List.mem_cons.mp hb with rfl | hb
          · simpa using hat
          · have hab : a.time ≤ b.time := ha b hb
            simp only [decide_eq_true_eq]
            omega
        rw [hfilter]
        simp [List.takeWhile_cons, hat]

theorem deltaSum_filter_events (vp : List (Int × Int))
    (h : ∀ p ∈ vp, p.1 ≤ p.2) (t : Int) :
    deltaSum ((vp.flatMap (fun p => [(⟨p.1, true⟩ : Event), ⟨p.2, false⟩])).filter
      (fun e => decide (e.time ≤ t))) = countAt vp t := by
  induction vp with
  | nil => rfl
  | cons p rest ih =>
      have hp : p.1 ≤ p.2 := h p (List.mem_cons_self _ _)
      have hrest : ∀ q ∈ rest, q.1 ≤ q.2 := fun q hq => h q (List.mem_cons_of_mem _ hq)
      have hflat : ((p :: rest).flatMap (fun p => [(⟨p.1, true⟩ : Event), ⟨p.2, false⟩])) =
          ⟨p.1, true⟩ :: ⟨p.2, false⟩ ::
            rest.flatMap (fun p => [(⟨p.1, true⟩ : Event), ⟨p.2, false⟩]) := rfl
      rw [hflat]
      have hcount : countAt (p :: rest) t =
          (if p.1 ≤ t ∧ t < p.2 then (1 : ℤ) else 0) + countAt rest t := by
        unfold countAt
        rw [List.map_cons, List.sum_cons]
      rw [hcount, List.filter_cons, List.filter_cons, ← ih hrest]
      by_cases h1 : p.1 ≤ t <;> by_cases h2 : p.2 ≤ t
      · have hite : ¬ (p.1 ≤ t ∧ t < p.2) := by omega
        simp [h1, h2, hite, deltaSum_cons, delta]
      · have hite : p.1 ≤ t ∧ t < p.2 := by omega
        simp [h1, h2, hite, deltaSum_cons, delta]
      · omega
      · have hite : ¬ (p.1 ≤ t ∧ t < p.2) := by omega
        simp [h1, h2, hite, deltaSum_cons, delta]

theorem countAt_le_sweepPeak (rows : List Row)
    (h : ∀ p ∈ validPairs rows, p.1 ≤ p.2) (t : Int) :
    countAt (validPairs rows) t ≤ sweepPeak (sortEvents (eventsOf rows)) := by
  rw [← deltaSum_filter_events (validPairs rows) h t]
  have hperm := (perm_sortEvents (eventsOf rows)).filter (fun e => decide (e.time ≤ t))
  have hsum : deltaSum ((eventsOf rows).filter (fun e => decide (e.time ≤ t))) =
      deltaSum ((sortEvents (eventsOf rows)).filter (fun e => decide (e.time ≤ t))) := by
    unfold deltaSum
    exact ((hperm.map delta).sum_eq).symm
  show deltaSum ((eventsOf rows).filter (fun e => decide (e.time ≤ t))) ≤ _
  rw [hsum, sorted_filter_eq_takeWhile t _ (sorted_sortEvents _)]
  have hpref :=
    List.takeWhile_prefix (l := sortEvents (eventsOf rows)) (fun e => decide (e.time ≤ t))
  have hle := sweep_prefix_le (sortEvents (eventsOf rows)) (0, 0) le_rfl _ hpref
  simpa [sweepPeak] using hle

theorem sum_Ico_indicator (lo hi s e : Int) (h1 : lo ≤ s) (h2 : s ≤ e) (h3 : e ≤ hi) :
    (∑ t in Finset.Ico lo hi, if s ≤ t ∧ t < e then (1 : ℤ) else 0) = e - s := by
  rw [Finset.sum_boole]
  have hfilter : (Finset.Ico lo hi).filter (fun t => s ≤ t ∧ t < e) = Finset.Ico s e := by
    ext x
    simp only [Finset.mem_filter, Finset.mem_Ico]
    omega
  rw [hfilter, Int.card_Ico]
  exact Int.toNat_of_nonneg (by omega)

theorem sum_Ico_countAt (vp : List (Int × Int)) (lo hi : Int)
    (h : ∀ p ∈ vp, lo ≤ p.1 ∧ p.1 ≤ p.2 ∧ p.2 ≤ hi) :
    (∑ t ∈ Finset.Ico lo hi, countAt vp t) = (vp.map (fun p => p.2 - p.1)).sum := by
  induction vp with
  | nil => simp [countAt]
  | cons p rest ih =>
      have hp := h p (List.mem_cons_self _ _)
      have hrest : ∀ q ∈ rest, lo ≤ q.1 ∧ q.1 ≤ q.2 ∧ q.2 ≤ hi :=
        fun q hq => h q (List.mem_cons_of_mem _ hq)
      have hsplit : ∀ t, countAt (p :: rest) t =
          (if p.1 ≤ t ∧ t < p.2 then (1 : ℤ) else 0) + countAt rest t := by
        intro t
        unfold countAt
        rw [List.map_cons, List.sum_cons]
      calc (∑ t ∈ Finset.Ico lo hi, countAt (p :: rest) t)
          = ∑ t ∈ Finset.Ico lo hi,
              ((if p.1 ≤ t ∧ t < p.2 then (1 : ℤ) else 0) + countAt rest t) :=
            Finset.sum_congr rfl (fun t _ => hsplit t)
        _ = (∑ t ∈ Finset.Ico lo hi, if p.1 ≤ t ∧ t < p.2 then (1 : ℤ) else 0) +
              ∑ t ∈ Finset.Ico lo hi, countAt rest t := Finset.sum_add_distrib
        _ = (p.2 - p.1) + (rest.map (fun p => p.2 - p.1)).sum := by
            rw [sum_Ico_indicator lo hi p.1 p.2 hp.1 hp.2.1 hp.2.2, ih hrest]
        _ = ((p :: rest).map (fun p => p.2 - p.1)).sum := by
            rw [List.map_cons, List.sum_cons]

/-- Counterexample to C4 as stated: with a well-formed record and a record
whose parsed `finished` precedes its `created`, the time-weighted average
concurrency computed by the code is negative, refuting `avg ≥ 0`. -/
theorem peak_avg_nonneg_counterexample :
    ¬ (0 ≤ (calculateSummary demoRowsMixed).avgConcurrency) := by
  simp only [calculateSummary, validPairs, eventsOf, sortEvents, List.insertionSort,
    List.orderedInsert, minStarts, maxEnds, sweepPeak, sweepStep, delta, timeLE,
    demoRowsMixed, mkRow, List.filterMap, List.flatMap, List.foldl, List.map,
    List.sum, List.isEmpty]
  norm_num

/-- C4 (amended): for every row set whose contributing records all satisfy
`created ≤ finished`, the summary statistics satisfy
`peak concurrency ≥ time-weighted average concurrency ≥ 0`. -/
theorem calculateSummary_peak_ge_avg_nonneg (rows : List Row)
    (h : ∀ p ∈ validPairs rows, p.1 ≤ p.2) :
    0 ≤ (calculateSummary rows).avgConcurrency ∧
      (calculateSummary rows).avgConcurrency ≤
        ((calculateSummary rows).peakConcurrency : ℚ) := by
  by_cases hvp : validPairs rows = []
  · unfold calculateSummary
    rw [hvp]
    simp
  · have hvpB : (validPairs rows).isEmpty = false := by
      cases hvp' : validPairs rows with
      | nil => exact absurd hvp' hvp
      | cons p r => rfl
    have hpeak : (calculateSummary rows).peakConcurrency =
        sweepPeak (sortEvents (eventsOf rows)) := by
      unfold calculateSummary
      simp only [hvpB, Bool.false_eq_true, if_false]
    have hcode : (calculateSummary rows).avgConcurrency =
        (if 0 < ((maxEnds (validPairs rows) - minStarts (validPairs rows) : ℤ) : ℚ) / 60000
         then ((((validPairs rows).map (fun p => p.2 - p.1)).sum : ℤ) : ℚ) / 60000 /
           (((maxEnds (validPairs rows) - minStarts (validPairs rows) : ℤ) : ℚ) / 60000)
         else 0) := by
      unfold calculateSummary
      simp only [hvpB, Bool.false_eq_true, if_false]
    have hN0 : 0 ≤ ((validPairs rows).map (fun p => p.2 - p.1)).sum := by
      refine List.sum_nonneg ?_
      intro x hx
      obtain ⟨p, hp, rfl⟩ := List.mem_map.mp hx
      have := h p hp
      omega
    have hDnn : 0 ≤ maxEnds (validPairs rows) - minStarts (validPairs rows) := by
      obtain ⟨p, hp, hmin⟩ := minStarts_mem _ hvp
      have h1 := maxEnds_ge (validPairs rows) p hp
      have h2 := h p hp
      omega
    rw [hcode, hpeak]
    rcases lt_or_eq_of_le hDnn with hDpos | hDzero
    · have hQpos : (0 : ℚ) <
          ((maxEnds (validPairs rows) - minStarts (validPairs rows) : ℤ) : ℚ) / 60000 :=
        div_pos (by exact_mod_cast hDpos) (by norm_num)
      rw [if_pos hQpos]
      have hDne :
          (((maxEnds (validPairs rows) - minStarts (validPairs rows) : ℤ) : ℚ)) ≠ 0 :=
        ne_of_gt (by exact_mod_cast hDpos)
      have havg : ((((validPairs rows).map (fun p => p.2 - p.1)).sum : ℤ) : ℚ) / 60000 /
          (((maxEnds (validPairs rows) - minStarts (validPairs rows) : ℤ) : ℚ) / 60000) =
          ((((validPairs rows).map (fun p => p.2 - p.1)).sum : ℤ) : ℚ) /
            ((maxEnds (validPairs rows) - minStarts (validPairs rows) : ℤ) : ℚ) := by
        field_simp
      rw [havg]
      have hDposQ : (0 : ℚ) <
          ((maxEnds (validPairs rows) - minStarts (validPairs rows) : ℤ) : ℚ) := by
        exact_mod_cast hDpos
      constructor
      · exact div_nonneg (by exact_mod_cast hN0) (le_of_lt hDposQ)
      · rw [div_le_iff₀ hDposQ]
        have hkey : ((validPairs rows).map (fun p => p.2 - p.1)).sum ≤
            sweepPeak (sortEvents (eventsOf rows)) *
              (maxEnds (validPairs rows) - minStarts (validPairs rows)) := by
          have hsum := sum_Ico_countAt (validPairs rows) (minStarts (validPairs rows))
            (maxEnds (validPairs rows))
            (fun p hp => ⟨minStarts_le _ p hp, h p hp, maxEnds_ge _ p hp⟩)
          have hbound : (∑ t ∈ Finset.Ico (minStarts (validPairs rows))
                (maxEnds (validPairs rows)), countAt (validPairs rows) t) ≤
              ∑ _t ∈ Finset.Ico (minStarts (validPairs rows))
                (maxEnds (validPairs rows)),
                  sweepPeak (sortEvents (eventsOf rows)) :=
            Finset.sum_le_sum (fun t _ => countAt_le_sweepPeak rows h t)
          rw [hsum, Finset.sum_const, Int.card_Ico, nsmul_eq_mul,
            Int.toNat_of_nonneg hDnn, mul_comm] at hbound
          exact hbound
        calc ((((validPairs rows).map (fun p => p.2 - p.1)).sum : ℤ) : ℚ)
            ≤ ((sweepPeak (sortEvents (eventsOf rows)) *
                (maxEnds (validPairs rows) - minStarts (validPairs rows)) : ℤ) : ℚ) := by
              exact_mod_cast hkey
          _ = (sweepPeak (sortEvents (eventsOf rows)) : ℚ) *
                ((maxEnds (validPairs rows) - minStarts (validPairs rows) : ℤ) : ℚ) := by
              push_cast
              ring
    · rw [← hDzero]
      constructor
      · simp
      · have hpk := sweepPeak_nonneg (sortEvents (eventsOf rows))
        simp only [Int.cast_zero, zero_div, lt_self_iff_false, if_false]
        exact_mod_cast hpk

/-- Witness for C4 (amended) on the two well-formed rows meeting at
instant 5. -/
theorem calculateSummary_peak_ge_avg_nonneg_witness :
    0 ≤ (calculateSummary demoRowsTie).avgConcurrency ∧
      (calculateSummary demoRowsTie).avgConcurrency ≤
        ((calculateSummary demoRowsTie).peakConcurrency : ℚ) :=
  calculateSummary_peak_ge_avg_nonneg demoRowsTie (by decide)

end ConvAI
